import Mathlib

/-!
Verification of the text-run segmentation algorithm of
`crates/ui2/src/components/label.rs` (the loop in `HighlightedLabel::render`),
together with the builder methods of `Label` and `HighlightedLabel`.

The embedding models the input text as a list of Unicode characters
(`List Char`); byte offsets and byte lengths follow UTF-8 semantics via
`Char.utf8Size`, which agrees with Rust's `char::len_utf8`.  Colors are
abstract: the segmenter is polymorphic in a color type with decidable
equality, matching the source's `Hsla` values compared with `==`.
-/

namespace LabelSpec

/-- A styled text run, as produced by `text_style.to_run(len)` in the source:
a byte length together with the resolved color. -/
structure TextRun (α : Type) where
  len : Nat
  color : α
  deriving DecidableEq, Repr

/-- The merge-or-append step at the bottom of the segmentation loop:
if the accumulated run list is nonempty and its most recent run has the same
color as the resolved color, extend that run by the character's byte length;
otherwise push a fresh run of that byte length and color.  The accumulator
keeps the most recent run at the head; the final result is reversed. -/
def pushRun {α : Type} [DecidableEq α] (acc : List (TextRun α)) (color : α)
    (sz : Nat) : List (TextRun α) :=
  match acc with
  | lastRun :: prev =>
    if color = lastRun.color then
      { len := lastRun.len + sz, color := lastRun.color } :: prev
    else
      { len := sz, color := color } :: lastRun :: prev
  | [] => [{ len := sz, color := color }]

/-- The color-resolution step of the loop body: the color starts as the base
color; if the peeked head of the highlight cursor equals the character's byte
offset, the color becomes the highlight color and the cursor advances.
Returns the resolved color and the updated cursor. -/
def segmentStep {α : Type} [DecidableEq α] (base highlight : α) (charIx : Nat)
    (hls : List Nat) : α × List Nat :=
  match hls with
  | [] => (base, [])
  | h :: hs => if charIx = h then (highlight, hs) else (base, h :: hs)

/-- The segmentation loop over the `char_indices` stream: each element carries
a character's byte offset and the character itself. -/
def segmentCore {α : Type} [DecidableEq α] (base highlight : α) :
    List (Nat × Char) → List Nat → List (TextRun α) → List (TextRun α)
  | [], _, acc => acc.reverse
  | (charIx, c) :: rest, hls, acc =>
    let step := segmentStep base highlight charIx hls
    segmentCore base highlight rest step.2 (pushRun acc step.1 c.utf8Size)

/-- Rust's `str::char_indices` starting from a given byte offset: pairs each
character with the byte offset of its first code unit. -/
def charIndicesFrom (offset : Nat) : List Char → List (Nat × Char)
  | [] => []
  | c :: cs => (offset, c) :: charIndicesFrom (offset + c.utf8Size) cs

/-- The run segmenter of `HighlightedLabel::render`: scan the text's
`char_indices`, resolve each character's color against the peekable highlight
cursor, and merge consecutive characters of equal resolved color into runs. -/
def segment {α : Type} [DecidableEq α] (base highlight : α) (text : List Char)
    (highlights : List Nat) : List (TextRun α) :=
  segmentCore base highlight (charIndicesFrom 0 text) highlights []

/-- Total UTF-8 byte length of a text. -/
def byteLen (text : List Char) : Nat :=
  (text.map Char.utf8Size).sum

/-- The final state of the highlight cursor after the scan: the cursor
advances past its head exactly when the head equals the current character's
byte offset. -/
def cursorAfter : List (Nat × Char) → List Nat → List Nat
  | [], hls => hls
  | (charIx, _) :: rest, hls =>
    match hls with
    | [] => cursorAfter rest []
    | h :: hs =>
      if charIx = h then cursorAfter rest hs else cursorAfter rest (h :: hs)

/-- The highlight offsets actually consumed (matched against a character)
during the scan, in consumption order. -/
def consumedOffsets : List (Nat × Char) → List Nat → List Nat
  | [], _ => []
  | (charIx, _) :: rest, hls =>
    match hls with
    | [] => consumedOffsets rest []
    | h :: hs =>
      if charIx = h then h :: consumedOffsets rest hs
      else consumedOffsets rest (h :: hs)

section Lemmas

variable {α : Type} [DecidableEq α]

theorem pushRun_sum (acc : List (TextRun α)) (color : α) (sz : Nat) :
    ((pushRun acc color sz).map TextRun.len).sum
      = (acc.map TextRun.len).sum + sz := by
  cases acc with
  | nil => simp [pushRun]
  | cons lastRun prev =>
    by_cases h : color = lastRun.color <;>
      simp [pushRun, h] <;> ring

theorem segmentCore_sum (base highlight : α) (ics : List (Nat × Char)) :
    ∀ (hls : List Nat) (acc : List (TextRun α)),
      ((segmentCore base highlight ics hls acc).map TextRun.len).sum
        = (acc.map TextRun.len).sum + (ics.map (fun p => p.2.utf8Size)).sum := by
  induction ics with
  | nil => intro hls acc; simp [segmentCore, List.sum_reverse]
  | cons p rest ih =>
    intro hls acc
    obtain ⟨charIx, c⟩ := p
    simp only [segmentCore, List.map_cons, List.sum_cons]
    rw [ih, pushRun_sum]
    ring

theorem map_snd_charIndicesFrom (text : List Char) :
    ∀ offset : Nat, (charIndicesFrom offset text).map Prod.snd = text := by
  induction text with
  | nil => intro offset; simp [charIndicesFrom]
  | cons c cs ih => intro offset; simp [charIndicesFrom, ih]

theorem charIndicesFrom_sizes (text : List Char) (offset : Nat) :
    ((charIndicesFrom offset text).map (fun p => p.2.utf8Size)).sum
      = byteLen text := by
  have h := map_snd_charIndicesFrom text offset
  calc ((charIndicesFrom offset text).map (fun p => p.2.utf8Size)).sum
      = (((charIndicesFrom offset text).map Prod.snd).map Char.utf8Size).sum := by
        rw [List.map_map]; rfl
    _ = byteLen text := by rw [h]; rfl

end Lemmas

/-- C1: for every input text, highlight offset list, base color and highlight
color, the sum of the byte lengths of the runs produced by the segmentation
loop equals the total byte length of the input text. -/
theorem segment_sum_len {α : Type} [DecidableEq α] (base highlight : α)
    (text : List Char) (highlights : List Nat) :
    ((segment base highlight text highlights).map TextRun.len).sum
      = byteLen text := by
  unfold segment
  rw [segmentCore_sum, charIndicesFrom_sizes]
  simp

section Lemmas2

variable {α : Type} [DecidableEq α]

theorem pushRun_chain (acc : List (TextRun α)) (color : α) (sz : Nat)
    (h : List.Chain' (· ≠ ·) (acc.map TextRun.color)) :
    List.Chain' (· ≠ ·) ((pushRun acc color sz).map TextRun.color) := by
  cases acc with
  | nil => simp [pushRun]
  | cons lastRun prev =>
    by_cases hc : color = lastRun.color
    · simpa [pushRun, hc] using h
    · simp only [pushRun, if_neg hc, List.map_cons]
      exact List.chain'_cons.mpr ⟨hc, by simpa using h⟩

theorem segmentCore_chain (base highlight : α) (ics : List (Nat × Char)) :
    ∀ (hls : List Nat) (acc : List (TextRun α)),
      List.Chain' (· ≠ ·) (acc.map TextRun.color) →
      List.Chain' (· ≠ ·)
        ((segmentCore base highlight ics hls acc).map TextRun.color) := by
  induction ics with
  | nil =>
    intro hls acc h
    simp only [segmentCore, List.map_reverse]
    exact List.chain'_reverse.mpr (h.imp fun a b hab => Ne.symm hab)
  | cons p rest ih =>
    intro hls acc h
    obtain ⟨charIx, c⟩ := p
    exact ih _ _ (pushRun_chain _ _ _ h)

theorem pushRun_pos (acc : List (TextRun α)) (color : α) (sz : Nat)
    (hsz : 0 < sz) (hacc : ∀ r ∈ acc, 0 < r.len) :
    ∀ r ∈ pushRun acc color sz, 0 < r.len := by
  cases acc with
  | nil =>
    intro r hr
    simp only [pushRun, List.mem_singleton] at hr
    subst hr
    exact hsz
  | cons lastRun prev =>
    intro r hr
    by_cases hc : color = lastRun.color
    · simp only [pushRun, if_pos hc, List.mem_cons] at hr
      rcases hr with h1 | h2
      · subst h1
        exact Nat.lt_of_lt_of_le hsz (Nat.le_add_left _ _)
      · exact hacc r (List.mem_cons_of_mem _ h2)
    · simp only [pushRun, if_neg hc, List.mem_cons] at hr
      rcases hr with h1 | h2
      · subst h1
        exact hsz
      · rcases h2 with h2 | h3
        · rw [h2]
          exact hacc lastRun (List.mem_cons_self _ _)
        · exact hacc r (List.mem_cons_of_mem _ h3)

theorem segmentCore_pos (base highlight : α) (ics : List (Nat × Char)) :
    ∀ (hls : List Nat) (acc : List (TextRun α)),
      (∀ r ∈ acc, 0 < r.len) →
      ∀ r ∈ segmentCore base highlight ics hls acc, 0 < r.len := by
  induction ics with
  | nil =>
    intro hls acc hacc r hr
    simp only [segmentCore, List.mem_reverse] at hr
    exact hacc r hr
  | cons p rest ih =>
    intro hls acc hacc r hr
    obtain ⟨charIx, c⟩ := p
    exact ih _ _ (pushRun_pos _ _ _ c.utf8Size_pos hacc) r hr

end Lemmas2

/-- C2: for every input text, highlight offset list, base color and highlight
color, no two adjacent runs in the output have equal colors: every run is
maximally merged. -/
theorem segment_adjacent_colors {α : Type} [DecidableEq α] (base highlight : α)
    (text : List Char) (highlights : List Nat) :
    List.Chain' (· ≠ ·)
      ((segment base highlight text highlights).map TextRun.color) :=
  segmentCore_chain base highlight (charIndicesFrom 0 text) highlights []
    (by simp)

/-- C8: every run in the output of segmentation has byte length strictly
greater than zero, for every input text and highlight offset list. -/
theorem segment_runs_pos {α : Type} [DecidableEq α] (base highlight : α)
    (text : List Char) (highlights : List Nat) :
    ∀ r ∈ segment base highlight text highlights, 0 < r.len :=
  segmentCore_pos base highlight (charIndicesFrom 0 text) highlights []
    (by simp)

/-- Witness for C8 at a concrete input: the single run produced for the text
"a" with no highlights has positive length. -/
theorem segment_runs_pos_witness : 0 < (TextRun.mk 1 (0 : Nat)).len :=
  segment_runs_pos 0 1 ['a'] [] (TextRun.mk 1 0) (by decide)

/-- C7: segmentation is deterministic: two runs of the algorithm on equal
inputs produce identical run sequences. -/
theorem segment_deterministic {α : Type} [DecidableEq α]
    (base₁ base₂ highlight₁ highlight₂ : α) (text₁ text₂ : List Char)
    (hls₁ hls₂ : List Nat) (hb : base₁ = base₂) (hh : highlight₁ = highlight₂)
    (ht : text₁ = text₂) (hl : hls₁ = hls₂) :
    segment base₁ highlight₁ text₁ hls₁ = segment base₂ highlight₂ text₂ hls₂ := by
  subst hb; subst hh; subst ht; subst hl; rfl

/-- Witness for C7 at a concrete input. -/
theorem segment_deterministic_witness :
    segment (0 : Nat) 1 ['a', 'b'] [1]
      = segment (0 : Nat) 1 ['a', 'b'] [1] :=
  segment_deterministic 0 0 1 1 _ _ _ _ rfl rfl rfl rfl

/-- C5: for the text "héllo" (é is 2 bytes) with highlights at byte offset 1
and distinct base and highlight colors, the runs are base for "h" (1 byte),
highlight for "é" (2 bytes, not 1), and base for "llo" (3 bytes): the run
boundary falls at byte offset 1 and the run containing é has byte length 2. -/
theorem segment_hello_multibyte {α : Type} [DecidableEq α]
    (base highlight : α) (h : base ≠ highlight) :
    segment base highlight "héllo".toList [1]
      = [TextRun.mk 1 base, TextRun.mk 2 highlight, TextRun.mk 3 base] := by
  have hne : highlight ≠ base := Ne.symm h
  unfold segment
  rw [show charIndicesFrom 0 "héllo".toList
        = [(0, 'h'), (1, 'é'), (3, 'l'), (4, 'l'), (5, 'o')] from by decide]
  have uh : ('h' : Char).utf8Size = 1 := by decide
  have ue : ('é' : Char).utf8Size = 2 := by decide
  have ul : ('l' : Char).utf8Size = 1 := by decide
  have uo : ('o' : Char).utf8Size = 1 := by decide
  simp [segmentCore, segmentStep, pushRun, uh, ue, ul, uo, h, hne]

/-- Witness for C5 at concrete colors. -/
theorem segment_hello_multibyte_witness :
    segment (0 : Nat) 1 "héllo".toList [1]
      = [TextRun.mk 1 0, TextRun.mk 2 1, TextRun.mk 3 0] :=
  segment_hello_multibyte 0 1 (by decide)

section Lemmas3

variable {α : Type} [DecidableEq α]

theorem consumedOffsets_nil_highlights :
    ∀ ics : List (Nat × Char), consumedOffsets ics [] = [] := by
  intro ics
  induction ics with
  | nil => rfl
  | cons p rest ih =>
    obtain ⟨charIx, c⟩ := p
    simpa [consumedOffsets] using ih

theorem consumed_append_cursor :
    ∀ (ics : List (Nat × Char)) (hls : List Nat),
      consumedOffsets ics hls ++ cursorAfter ics hls = hls := by
  intro ics
  induction ics with
  | nil => intro hls; rfl
  | cons p rest ih =>
    intro hls
    obtain ⟨charIx, c⟩ := p
    cases hls with
    | nil => simpa [consumedOffsets, cursorAfter] using ih []
    | cons h hs =>
      by_cases hc : charIx = h
      · simpa [consumedOffsets, cursorAfter, hc] using ih hs
      · simpa [consumedOffsets, cursorAfter, hc] using ih (h :: hs)

theorem consumedOffsets_mono (text : List Char) :
    ∀ (offset : Nat) (hls : List Nat),
      List.Chain' (· < ·) (consumedOffsets (charIndicesFrom offset text) hls)
      ∧ ∀ x ∈ consumedOffsets (charIndicesFrom offset text) hls, offset ≤ x := by
  induction text with
  | nil =>
    intro offset hls
    constructor
    · simp [charIndicesFrom, consumedOffsets]
    · simp [charIndicesFrom, consumedOffsets]
  | cons c cs ih =>
    intro offset hls
    cases hls with
    | nil =>
      rw [show charIndicesFrom offset (c :: cs)
            = (offset, c) :: charIndicesFrom (offset + c.utf8Size) cs from rfl]
      rw [show consumedOffsets
            ((offset, c) :: charIndicesFrom (offset + c.utf8Size) cs) []
            = consumedOffsets (charIndicesFrom (offset + c.utf8Size) cs) []
          from rfl]
      rw [consumedOffsets_nil_highlights]
      constructor
      · simp
      · simp
    | cons h hs =>
      rw [show charIndicesFrom offset (c :: cs)
            = (offset, c) :: charIndicesFrom (offset + c.utf8Size) cs from rfl]
      by_cases hc : offset = h
      · obtain ⟨ihc, ihm⟩ := ih (offset + c.utf8Size) hs
        rw [show consumedOffsets
              ((offset, c) :: charIndicesFrom (offset + c.utf8Size) cs) (h :: hs)
              = h :: consumedOffsets (charIndicesFrom (offset + c.utf8Size) cs) hs
            from by simp [consumedOffsets, hc]]
        constructor
        · apply List.chain'_cons'.mpr
          refine ⟨?_, ihc⟩
          intro y hy
          have hym : y ∈ consumedOffsets
              (charIndicesFrom (offset + c.utf8Size) cs) hs :=
            List.mem_of_mem_head? hy
          have h1 := ihm y hym
          have h2 := c.utf8Size_pos
          omega
        · intro x hx
          rcases List.mem_cons.mp hx with h1 | h2
          · omega
          · have := ihm x h2
            omega
      · obtain ⟨ihc, ihm⟩ := ih (offset + c.utf8Size) (h :: hs)
        rw [show consumedOffsets
              ((offset, c) :: charIndicesFrom (offset + c.utf8Size) cs) (h :: hs)
              = consumedOffsets (charIndicesFrom (offset + c.utf8Size) cs) (h :: hs)
            from by simp [consumedOffsets, hc]]
        refine ⟨ihc, ?_⟩
        intro x hx
        have := ihm x hx
        omega

theorem segmentCore_consumed (base highlight : α) (text : List Char) :
    ∀ (offset : Nat) (hls : List Nat) (acc : List (TextRun α)),
      segmentCore base highlight (charIndicesFrom offset text) hls acc
        = segmentCore base highlight (charIndicesFrom offset text)
            (consumedOffsets (charIndicesFrom offset text) hls) acc := by
  induction text with
  | nil => intro offset hls acc; rfl
  | cons c cs ih =>
    intro offset hls acc
    rw [show charIndicesFrom offset (c :: cs)
          = (offset, c) :: charIndicesFrom (offset + c.utf8Size) cs from rfl]
    cases hls with
    | nil =>
      rw [show consumedOffsets
            ((offset, c) :: charIndicesFrom (offset + c.utf8Size) cs) []
            = consumedOffsets (charIndicesFrom (offset + c.utf8Size) cs) []
          from rfl]
      rw [consumedOffsets_nil_highlights]
    | cons h hs =>
      by_cases hc : offset = h
      · rw [show consumedOffsets
              ((offset, c) :: charIndicesFrom (offset + c.utf8Size) cs) (h :: hs)
              = h :: consumedOffsets (charIndicesFrom (offset + c.utf8Size) cs) hs
            from by simp [consumedOffsets, hc]]
        simp only [segmentCore, segmentStep, if_pos hc]
        exact ih (offset + c.utf8Size) hs _
      · rw [show consumedOffsets
              ((offset, c) :: charIndicesFrom (offset + c.utf8Size) cs) (h :: hs)
              = consumedOffsets (charIndicesFrom (offset + c.utf8Size) cs) (h :: hs)
            from by simp [consumedOffsets, hc]]
        have hmono :=
          (consumedOffsets_mono cs (offset + c.utf8Size) (h :: hs)).2
        have hstepL : segmentStep base highlight offset
            (consumedOffsets (charIndicesFrom (offset + c.utf8Size) cs) (h :: hs))
            = (base, consumedOffsets
                (charIndicesFrom (offset + c.utf8Size) cs) (h :: hs)) := by
          cases hL : consumedOffsets
              (charIndicesFrom (offset + c.utf8Size) cs) (h :: hs) with
          | nil => simp [segmentStep]
          | cons x xs =>
            have hx : offset + c.utf8Size ≤ x := by
              apply hmono
              rw [hL]
              exact List.mem_cons_self _ _
            have hne : ¬ offset = x := by
              have := c.utf8Size_pos
              omega
            simp [segmentStep, hne]
        simp only [segmentCore]
        rw [show segmentStep base highlight offset (h :: hs) = (base, h :: hs)
          from by simp [segmentStep, hc]]
        rw [hstepL]
        exact ih (offset + c.utf8Size) (h :: hs) (pushRun acc base c.utf8Size)

theorem chain_prefix_bound (L R hls : List Nat) (hsplit : L ++ R = hls)
    (hchain : List.Chain' (· < ·) L) (j : Nat) (hj : j + 1 < hls.length)
    (hord : hls.get ⟨j + 1, hj⟩ ≤ hls.get ⟨j, Nat.lt_of_succ_lt hj⟩) :
    L.length ≤ j + 1 := by
  subst hsplit
  by_contra hk
  push_neg at hk
  have hj1 : j + 1 < L.length := hk
  have hj0 : j < L.length := Nat.lt_of_succ_lt hj1
  have e0 : (L ++ R).get ⟨j, Nat.lt_of_succ_lt hj⟩ = L.get ⟨j, hj0⟩ := by
    simp [List.get_eq_getElem, List.getElem_append_left, hj0]
  have e1 : (L ++ R).get ⟨j + 1, hj⟩ = L.get ⟨j + 1, hj1⟩ := by
    simp [List.get_eq_getElem, List.getElem_append_left, hj1]
  have hlt : L.get ⟨j, hj0⟩ < L.get ⟨j + 1, hj1⟩ := by
    have := List.chain'_iff_get.mp hchain j (by omega)
    exact this
  rw [e0, e1] at hord
  omega

end Lemmas3

/-- C3: the per-character color-resolution step of the loop: the resolved
color is the base color unless the highlight cursor's peeked head equals the
character's byte offset, in which case it is the highlight color and the
cursor advances past that offset; the advancing cursor matches the
instrumented cursor scan, and across a whole scan the consumed offsets
followed by the remaining cursor reconstitute the highlight list exactly, so
each highlight offset is consumed at most once. -/
theorem segmentStep_resolution {α : Type} [DecidableEq α] (base highlight : α) :
    (∀ (charIx : Nat) (hls : List Nat),
        segmentStep base highlight charIx hls
          = if hls.head? = some charIx then (highlight, hls.tail)
            else (base, hls))
    ∧ (∀ (charIx : Nat) (c : Char) (hls : List Nat),
        (segmentStep base highlight charIx hls).2 = cursorAfter [(charIx, c)] hls)
    ∧ (∀ (ics : List (Nat × Char)) (hls : List Nat),
        consumedOffsets ics hls ++ cursorAfter ics hls = hls) := by
  refine ⟨?_, ?_, consumed_append_cursor⟩
  · intro charIx hls
    cases hls with
    | nil => simp [segmentStep]
    | cons h hs =>
      by_cases hc : charIx = h
      · subst hc
        simp [segmentStep]
      · have hc2 : ¬ h = charIx := fun he => hc he.symm
        simp [segmentStep, hc, hc2]
  · intro charIx c hls
    cases hls with
    | nil => rfl
    | cons h hs =>
      by_cases hc : charIx = h <;> simp [segmentStep, cursorAfter, hc]

/-- C6: segmentation is total and best-effort on malformed highlight lists:
the output only depends on the prefix of highlight offsets the forward cursor
actually consumes (offsets never consumed are silently skipped and cannot
color any character); the consumed offsets are strictly increasing; hence as
soon as an adjacent pair of highlight offsets is out of order, at most the
offsets up to and including that pair's first element are ever consumed. -/
theorem segment_unsorted_best_effort {α : Type} [DecidableEq α]
    (base highlight : α) (text : List Char) (hls : List Nat) :
    segment base highlight text hls
        = segment base highlight text
            (consumedOffsets (charIndicesFrom 0 text) hls)
    ∧ List.Chain' (· < ·) (consumedOffsets (charIndicesFrom 0 text) hls)
    ∧ ∀ (j : Nat) (hj : j + 1 < hls.length),
        hls.get ⟨j + 1, hj⟩ ≤ hls.get ⟨j, Nat.lt_of_succ_lt hj⟩ →
        (consumedOffsets (charIndicesFrom 0 text) hls).length ≤ j + 1 := by
  refine ⟨segmentCore_consumed base highlight text 0 hls [],
    (consumedOffsets_mono text 0 hls).1, ?_⟩
  intro j hj hord
  exact chain_prefix_bound _ _ _ (consumed_append_cursor _ hls)
    (consumedOffsets_mono text 0 hls).1 j hj hord

/-- Witness for C6 at a concrete input: for text "abc" and the unsorted
highlight list with offsets 2 then 1, at most one offset is consumed. -/
theorem segment_unsorted_best_effort_witness :
    (consumedOffsets (charIndicesFrom 0 ['a', 'b', 'c']) [2, 1]).length ≤ 1 :=
  (segment_unsorted_best_effort (0 : Nat) 1 ['a', 'b', 'c'] [2, 1]).2.2 0
    (by decide) (by decide)

section Lemmas4

variable {α : Type} [DecidableEq α]

theorem segmentStep_fst_same (base : α) (charIx : Nat) (hls : List Nat) :
    (segmentStep base base charIx hls).1 = base := by
  cases hls with
  | nil => rfl
  | cons h hs => by_cases hc : charIx = h <;> simp [segmentStep, hc]

theorem segmentCore_same_color (base : α) (ics : List (Nat × Char)) :
    ∀ (hls : List Nat) (n : Nat) (acc : List (TextRun α)),
      segmentCore base base ics hls (TextRun.mk n base :: acc)
        = (TextRun.mk (n + (ics.map (fun p => p.2.utf8Size)).sum) base
            :: acc).reverse := by
  induction ics with
  | nil => intro hls n acc; simp [segmentCore]
  | cons p rest ih =>
    intro hls n acc
    obtain ⟨charIx, c⟩ := p
    simp only [segmentCore]
    rw [segmentStep_fst_same]
    rw [show pushRun (TextRun.mk n base :: acc) base c.utf8Size
          = TextRun.mk (n + c.utf8Size) base :: acc from by simp [pushRun]]
    rw [ih]
    simp [Nat.add_assoc]

theorem segmentCore_nil_highlights (base highlight : α)
    (ics : List (Nat × Char)) :
    ∀ (n : Nat) (acc : List (TextRun α)),
      segmentCore base highlight ics [] (TextRun.mk n base :: acc)
        = (TextRun.mk (n + (ics.map (fun p => p.2.utf8Size)).sum) base
            :: acc).reverse := by
  induction ics with
  | nil => intro n acc; simp [segmentCore]
  | cons p rest ih =>
    intro n acc
    obtain ⟨charIx, c⟩ := p
    simp only [segmentCore]
    rw [show (segmentStep base highlight charIx ([] : List Nat)).1 = base
      from rfl]
    rw [show (segmentStep base highlight charIx ([] : List Nat)).2
          = ([] : List Nat) from rfl]
    rw [show pushRun (TextRun.mk n base :: acc) base c.utf8Size
          = TextRun.mk (n + c.utf8Size) base :: acc from by simp [pushRun]]
    rw [ih]
    simp [Nat.add_assoc]

end Lemmas4

/-- Counterexample for C4 as stated: for the empty input text with an empty
highlight list, the segmentation loop produces no runs at all, not exactly
one run covering the (empty) text. -/
theorem segment_empty_text_not_single_run :
    (segment (0 : Nat) 1 ([] : List Char) []).length ≠ 1 := by decide

/-- C4 (amended): for every non-empty input text, if the highlight offset
list is empty then the output is exactly one run covering the whole text,
colored with the base color (for the empty text the output is the empty run
list). -/
theorem segment_empty_highlights {α : Type} [DecidableEq α]
    (base highlight : α) (text : List Char) (h : text ≠ []) :
    segment base highlight text [] = [TextRun.mk (byteLen text) base] := by
  cases text with
  | nil => exact absurd rfl h
  | cons c cs =>
    unfold segment
    rw [show charIndicesFrom 0 (c :: cs)
          = (0, c) :: charIndicesFrom (0 + c.utf8Size) cs from rfl]
    simp only [segmentCore]
    rw [show (segmentStep base highlight 0 ([] : List Nat)).1 = base from rfl]
    rw [show (segmentStep base highlight 0 ([] : List Nat)).2
          = ([] : List Nat) from rfl]
    rw [show pushRun ([] : List (TextRun α)) base c.utf8Size
          = [TextRun.mk c.utf8Size base] from rfl]
    rw [show ([TextRun.mk c.utf8Size base] : List (TextRun α))
          = TextRun.mk c.utf8Size base :: [] from rfl]
    rw [segmentCore_nil_highlights]
    rw [charIndicesFrom_sizes]
    simp [byteLen]

/-- Witness for the amended C4 at a concrete input. -/
theorem segment_empty_highlights_witness :
    segment (0 : Nat) 1 ['a', 'b'] [] = [TextRun.mk 2 0] :=
  segment_empty_highlights 0 1 ['a', 'b'] (by decide)

/-- C9: when the resolved base color equals the highlight color (as happens
when the label color is Accent, the highlight color being hardwired to the
theme's text accent color), the output for any highlight offset list equals
the output for the empty highlight list, and for non-empty text it is a
single run covering the whole text. -/
theorem segment_base_eq_highlight {α : Type} [DecidableEq α] (base : α)
    (text : List Char) (hls : List Nat) :
    segment base base text hls = segment base base text []
    ∧ (text ≠ [] →
        segment base base text hls = [TextRun.mk (byteLen text) base]) := by
  have key : ∀ (hls' : List Nat), text ≠ [] →
      segment base base text hls' = [TextRun.mk (byteLen text) base] := by
    intro hls' hne
    cases text with
    | nil => exact absurd rfl hne
    | cons c cs =>
      unfold segment
      rw [show charIndicesFrom 0 (c :: cs)
            = (0, c) :: charIndicesFrom (0 + c.utf8Size) cs from rfl]
      simp only [segmentCore]
      rw [segmentStep_fst_same]
      rw [show pushRun ([] : List (TextRun α)) base c.utf8Size
            = TextRun.mk c.utf8Size base :: [] from rfl]
      rw [segmentCore_same_color]
      rw [charIndicesFrom_sizes]
      simp [byteLen]
  constructor
  · by_cases hzero : text = []
    · subst hzero; rfl
    · rw [key hls hzero, key [] hzero]
  · exact key hls

/-- Witness for C9 at a concrete input. -/
theorem segment_base_eq_highlight_witness :
    segment (0 : Nat) 0 ['a', 'b'] [1] = [TextRun.mk 2 0] :=
  (segment_base_eq_highlight 0 ['a', 'b'] [1]).2 (by decide)

/-- The semantic color roles of a label, from the `LabelColor` enum of the
source. -/
inductive LabelColor
  | default
  | muted
  | created
  | modified
  | deleted
  | disabled
  | hidden
  | placeholder
  | accent
  deriving DecidableEq, Repr

/-- Line-height styles of a label, from the `LineHeightStyle` enum. -/
inductive LineHeightStyle
  | textLabel
  | uiLabel
  deriving DecidableEq, Repr

/-- The `Label` component's state. -/
structure Label where
  label : String
  line_height_style : LineHeightStyle
  color : LabelColor
  strikethrough : Bool
  deriving DecidableEq, Repr

/-- `Label::new`. -/
def Label.new (label : String) : Label :=
  { label := label, line_height_style := LineHeightStyle.textLabel,
    color := LabelColor.default, strikethrough := false }

/-- The builder method `Label::color` (named `setColor` here because the
record field of the same name takes the accessor name in Lean). -/
def Label.setColor (self : Label) (color : LabelColor) : Label :=
  { self with color := color }

/-- The builder method `Label::line_height_style`. -/
def Label.setLineHeightStyle (self : Label)
    (line_height_style : LineHeightStyle) : Label :=
  { self with line_height_style := line_height_style }

/-- The builder method `Label::set_strikethrough`. -/
def Label.set_strikethrough (self : Label) (strikethrough : Bool) : Label :=
  { self with strikethrough := strikethrough }

/-- The `HighlightedLabel` component's state. -/
structure HighlightedLabel where
  label : String
  color : LabelColor
  highlight_indices : List Nat
  strikethrough : Bool
  deriving DecidableEq, Repr

/-- `HighlightedLabel::new`. -/
def HighlightedLabel.new (label : String) (highlight_indices : List Nat) :
    HighlightedLabel :=
  { label := label, color := LabelColor.default,
    highlight_indices := highlight_indices, strikethrough := false }

/-- The builder method `HighlightedLabel::color` (named `setColor` here
because the record field of the same name takes the accessor name in Lean). -/
def HighlightedLabel.setColor (self : HighlightedLabel) (color : LabelColor) :
    HighlightedLabel :=
  { self with color := color }

/-- The builder method `HighlightedLabel::set_strikethrough`. -/
def HighlightedLabel.set_strikethrough (self : HighlightedLabel)
    (strikethrough : Bool) : HighlightedLabel :=
  { self with strikethrough := strikethrough }

/-- C10: the builder methods modify only their own field: `color` sets the
color field and leaves label, highlight indices, line-height style and
strikethrough unchanged; `set_strikethrough` sets only the strikethrough
flag; this holds for both `HighlightedLabel` and `Label`. -/
theorem builder_methods_frame (hl : HighlightedLabel) (l : Label)
    (c : LabelColor) (b : Bool) :
    (hl.setColor c).color = c
    ∧ (hl.setColor c).label = hl.label
    ∧ (hl.setColor c).highlight_indices = hl.highlight_indices
    ∧ (hl.setColor c).strikethrough = hl.strikethrough
    ∧ (hl.set_strikethrough b).strikethrough = b
    ∧ (hl.set_strikethrough b).label = hl.label
    ∧ (hl.set_strikethrough b).color = hl.color
    ∧ (hl.set_strikethrough b).highlight_indices = hl.highlight_indices
    ∧ (l.setColor c).color = c
    ∧ (l.setColor c).label = l.label
    ∧ (l.setColor c).line_height_style = l.line_height_style
    ∧ (l.setColor c).strikethrough = l.strikethrough
    ∧ (l.set_strikethrough b).strikethrough = b
    ∧ (l.set_strikethrough b).label = l.label
    ∧ (l.set_strikethrough b).color = l.color
    ∧ (l.set_strikethrough b).line_height_style = l.line_height_style :=
  ⟨rfl, rfl, rfl, rfl, rfl, rfl, rfl, rfl, rfl, rfl, rfl, rfl, rfl, rfl, rfl,
    rfl⟩

end LabelSpec
